import Mathlib

/-!
Shallow embedding of the broadcast-hub server (package `main`: `hub.go`,
`model.go`).  The hub owns two pieces of state:

* the subscriber registry `clients : map[*websocket.Conn]string`
  (connection handle ↦ filter specification), and
* the duration ledger `weeklyRecords : map[string][]SessionRecord`
  (client key ↦ ordered record sequence).

Go maps are embedded as association lists with unique keys (the map
invariant); `time.Time` instants are embedded as integers (seconds), so
`now.Add(-7 * 24 * time.Hour)` is `now - weekSeconds` and
`t.After(u)` is the strict comparison `u < t`.  `int64` durations are
embedded as `Int` (no claim here concerns overflow).  Connection handles
are opaque: `Nat`.  Delivery I/O is embedded by an oracle
`writeOk : Conn → Bool` saying whether `WriteMessage` to that handle
succeeds during the pass, and JSON encoding by a boolean `marshalOk`
saying whether `json.Marshal` succeeds for the event.
-/

namespace GoS

/-- `SessionRecord` (model.go): a `time.Time` timestamp (embedded as an
integer instant) and an `int64` duration in seconds. -/
structure SessionRecord where
  timestamp : Int
  duration : Int
deriving DecidableEq

/-- `7 * 24 * time.Hour`, in seconds. -/
def weekSeconds : Int := 7 * 24 * 60 * 60

/-- The four byte values `strings.TrimSpace` removes from the ASCII strings
used as event-type tags (space, tab, newline, carriage return). -/
def isSpaceChar (c : Char) : Bool :=
  c == ' ' || c == '\t' || c == '\n' || c == '\r'

/-- `strings.Split(s, ",")` over the characters of `s`: the substrings
between commas, in order; splitting a comma-free string yields one group. -/
def splitCommaChars : List Char → List (List Char)
  | [] => [[]]
  | c :: rest =>
    if c == ',' then [] :: splitCommaChars rest
    else
      match splitCommaChars rest with
      | [] => [[c]]
      | g :: gs => (c :: g) :: gs

/-- `strings.TrimSpace` over the characters of a token: drop whitespace
from both ends. -/
def trimChars (cs : List Char) : List Char :=
  ((cs.dropWhile isSpaceChar).reverse.dropWhile isSpaceChar).reverse

/-- `matchesFilter(messageType, filter)` (hub.go): empty filter matches
everything; otherwise split the filter on commas and accept iff some
trimmed token equals the message type. -/
def matchesFilter (messageType filter : String) : Bool :=
  if filter == "" then true
  else (splitCommaChars filter.data).any (fun f => trimChars f == messageType.data)

/-! ### The duration ledger (`weeklyRecords`) -/

/-- The ledger state: `weeklyRecords`, a Go map from client key to record
sequence, embedded as an association list (unique keys). -/
abbrev Ledger := List (String × List SessionRecord)

/-- Go map read `h.weeklyRecords[clientKey]`: the stored sequence, or the
zero value `nil` for a missing key. -/
def lookupRecords : Ledger → String → List SessionRecord
  | [], _ => []
  | p :: rest, k => if p.1 == k then p.2 else lookupRecords rest k

/-- Go map assignment `h.weeklyRecords[clientKey] = recs`: replace the
entry for the key, or add one if absent. -/
def storeRecords : Ledger → String → List SessionRecord → Ledger
  | [], k, v => [(k, v)]
  | p :: rest, k, v => if p.1 == k then (k, v) :: rest else p :: storeRecords rest k v

/-- The prune-and-sum loop of `Hub.AddSessionRecord` (hub.go): one pass over
the records, keeping each record with `r.Timestamp.After(sevenDaysAgo)` and
accumulating its duration. -/
def pruneLoop (sevenDaysAgo : Int) (recs : List SessionRecord) : List SessionRecord × Int :=
  recs.foldl
    (fun acc r =>
      if sevenDaysAgo < r.timestamp then (acc.1 ++ [r], acc.2 + r.duration) else acc)
    ([], 0)

/-- The read-only total loop shared by `Hub.GetWeeklyTotal` and
`Hub.GetAllWeeklyTotals` (hub.go): sum the durations of the records with
`r.Timestamp.After(sevenDaysAgo)`. -/
def totalLoop (sevenDaysAgo : Int) (recs : List SessionRecord) : Int :=
  recs.foldl
    (fun total r => if sevenDaysAgo < r.timestamp then total + r.duration else total)
    0

/-- `Hub.AddSessionRecord(clientKey, duration)` (hub.go): append a record
timestamped `now`, prune everything at or before `now - 7d`, store the
pruned sequence back, and return the retained sum. -/
def addSessionRecord (st : Ledger) (now : Int) (k : String) (d : Int) : Ledger × Int :=
  let sevenDaysAgo := now - weekSeconds
  let recs := lookupRecords st k ++ [⟨now, d⟩]
  let pt := pruneLoop sevenDaysAgo recs
  (storeRecords st k pt.1, pt.2)

/-- `Hub.GetWeeklyTotal(clientKey)` (hub.go): the method body performs no
assignment to `h.weeklyRecords`, so the state component of the result is
the input state unchanged; the value is the weekly sum for the key. -/
def getWeeklyTotal (st : Ledger) (now : Int) (k : String) : Ledger × Int :=
  (st, totalLoop (now - weekSeconds) (lookupRecords st k))

/-- `Hub.GetAllWeeklyTotals()` (hub.go): for every stored key compute the
weekly sum and emit the key only when `total > 0`. -/
def getAllWeeklyTotals (st : Ledger) (now : Int) : List (String × Int) :=
  let sevenDaysAgo := now - weekSeconds
  st.filterMap (fun p =>
    let total := totalLoop sevenDaysAgo p.2
    if 0 < total then some (p.1, total) else none)

/-! ### The subscriber registry (`clients`) -/

/-- An opaque connection handle (`*websocket.Conn`). -/
abbrev Conn := Nat

/-- The registry state: `clients`, a Go map from connection handle to
filter specification, embedded as an association list (unique keys). -/
abbrev Registry := List (Conn × String)

/-- Go map read with presence test: `filter, ok := h.clients[conn]` —
`some` the stored filter when the handle is present, `none` otherwise. -/
def lookupFilter : Registry → Conn → Option String
  | [], _ => none
  | p :: rest, c => if p.1 == c then some p.2 else lookupFilter rest c

/-- The register case of `Hub.run` (hub.go):
`h.clients[sub.Conn] = sub.Filter` — replace the entry for the handle, or
add one if absent. -/
def registerClient : Registry → Conn → String → Registry
  | [], c, f => [(c, f)]
  | p :: rest, c, f => if p.1 == c then (c, f) :: rest else p :: registerClient rest c f

/-- The unregister case of `Hub.run` (hub.go): when the handle is present,
delete it and call `Close` (the returned boolean records whether `Close`
was called); otherwise nothing happens. -/
def unregisterClient (st : Registry) (c : Conn) : Registry × Bool :=
  match lookupFilter st c with
  | some _ => (st.filter (fun p => !(p.1 == c)), true)
  | none => (st, false)

/-- The delivery loop of `Hub.broadcastMessage` (hub.go) over the snapshot:
skip a subscriber when `filter != "" && !matchesFilter(...)`; otherwise
attempt the write — on error collect the handle in `failedClients`, on
success increment `successCount`.  Returns (failed handles, success
count). -/
def deliverPass (snapshot : Registry) (msgType : String) (writeOk : Conn → Bool) :
    List Conn × Nat :=
  snapshot.foldl
    (fun acc p =>
      if p.2 != "" && !matchesFilter msgType p.2 then acc
      else if writeOk p.1 then (acc.1, acc.2 + 1)
      else (acc.1 ++ [p.1], acc.2))
    ([], 0)

/-- `Hub.broadcastMessage` (hub.go): when `json.Marshal` fails, log and
return with the registry untouched; otherwise run the delivery pass over
the snapshot of the registry, then remove every failed handle in one
batched step after the pass.  Returns (new registry, success count). -/
def broadcastMessage (st : Registry) (msgType : String) (marshalOk : Bool)
    (writeOk : Conn → Bool) : Registry × Nat :=
  if !marshalOk then (st, 0)
  else
    let fp := deliverPass st msgType writeOk
    (st.filter (fun p => !(fp.1.contains p.1)), fp.2)

/-! ### Loop characterizations -/

/-- The prune-and-sum loop, run from an arbitrary accumulator: it appends
the retained records and adds their durations. -/
theorem pruneLoop_foldl (cut : Int) (recs : List SessionRecord) (acc : List SessionRecord × Int) :
    recs.foldl
      (fun a r => if cut < r.timestamp then (a.1 ++ [r], a.2 + r.duration) else a) acc
      = (acc.1 ++ recs.filter (fun r => cut < r.timestamp),
         acc.2 + ((recs.filter (fun r => cut < r.timestamp)).map SessionRecord.duration).sum) := by
  induction recs generalizing acc with
  | nil => simp
  | cons r rs ih =>
    by_cases h : cut < r.timestamp
    · simp [h, ih, add_assoc]
    · simp [h, ih]

/-- `pruneLoop` keeps exactly the records strictly inside the window and
returns the sum of their durations. -/
theorem pruneLoop_eq (cut : Int) (recs : List SessionRecord) :
    pruneLoop cut recs
      = (recs.filter (fun r => cut < r.timestamp),
         ((recs.filter (fun r => cut < r.timestamp)).map SessionRecord.duration).sum) := by
  simpa [pruneLoop] using pruneLoop_foldl cut recs ([], 0)

/-- The read-only total loop, run from an arbitrary accumulator. -/
theorem totalLoop_foldl (cut : Int) (recs : List SessionRecord) (acc : Int) :
    recs.foldl (fun total r => if cut < r.timestamp then total + r.duration else total) acc
      = acc + ((recs.filter (fun r => cut < r.timestamp)).map SessionRecord.duration).sum := by
  induction recs generalizing acc with
  | nil => simp
  | cons r rs ih =>
    by_cases h : cut < r.timestamp
    · simp [h, ih, add_assoc]
    · simp [h, ih]

/-- `totalLoop` sums the durations of the records strictly inside the
window. -/
theorem totalLoop_eq (cut : Int) (recs : List SessionRecord) :
    totalLoop cut recs
      = ((recs.filter (fun r => cut < r.timestamp)).map SessionRecord.duration).sum := by
  simpa [totalLoop] using totalLoop_foldl cut recs 0

/-- A record stamped exactly at the cutoff contributes nothing to the
total (the comparison is strict). -/
theorem totalLoop_append_boundary (cut d : Int) (rs : List SessionRecord) :
    totalLoop cut (rs ++ [⟨cut, d⟩]) = totalLoop cut rs := by
  simp [totalLoop_eq, List.filter_append]

/-! ### Association-list (Go map) lemmas -/

theorem lookupRecords_storeRecords_self (st : Ledger) (k : String) (v : List SessionRecord) :
    lookupRecords (storeRecords st k v) k = v := by
  induction st with
  | nil => simp [storeRecords, lookupRecords]
  | cons p rest ih =>
    by_cases h : p.1 = k
    · simp [storeRecords, lookupRecords, h]
    · simp [storeRecords, lookupRecords, h, ih]

theorem storeRecords_storeRecords (st : Ledger) (k : String) (v w : List SessionRecord) :
    storeRecords (storeRecords st k v) k w = storeRecords st k w := by
  induction st with
  | nil => simp [storeRecords]
  | cons p rest ih =>
    by_cases h : p.1 = k
    · simp [storeRecords, h]
    · simp [storeRecords, h, ih]

/-- `getAllWeeklyTotals` on a cons cell: the head contributes its pair
exactly when its total is positive. -/
theorem getAllWeeklyTotals_cons (p : String × List SessionRecord) (rest : Ledger) (now : Int) :
    getAllWeeklyTotals (p :: rest) now
      = (if 0 < totalLoop (now - weekSeconds) p.2
          then [(p.1, totalLoop (now - weekSeconds) p.2)] else [])
        ++ getAllWeeklyTotals rest now := by
  by_cases h : 0 < totalLoop (now - weekSeconds) p.2
  · simp [getAllWeeklyTotals, List.filterMap_cons, h]
  · simp [getAllWeeklyTotals, List.filterMap_cons, h]

/-- Replacing a key's records by the same records with a record stamped
exactly at the cutoff appended changes no emitted total. -/
theorem getAllWeeklyTotals_storeRecords_boundary (st : Ledger) (k : String)
    (rs : List SessionRecord) (now d : Int) :
    getAllWeeklyTotals (storeRecords st k (rs ++ [⟨now - weekSeconds, d⟩])) now
      = getAllWeeklyTotals (storeRecords st k rs) now := by
  induction st with
  | nil =>
    simp [storeRecords, getAllWeeklyTotals_cons, totalLoop_append_boundary]
  | cons p rest ih =>
    by_cases h : p.1 = k
    · simp [storeRecords, h, getAllWeeklyTotals_cons, totalLoop_append_boundary]
    · simp [storeRecords, h, getAllWeeklyTotals_cons, ih]

/-- A key absent from the ledger is absent from the totals map. -/
theorem getAllWeeklyTotals_absent (st : Ledger) (now : Int) (k : String)
    (h : k ∉ st.map Prod.fst) :
    (getAllWeeklyTotals st now).find? (fun q => q.1 == k) = none := by
  induction st with
  | nil => simp [getAllWeeklyTotals]
  | cons p rest ih =>
    have hpk : p.1 ≠ k := by
      intro he
      exact h (by simp [he])
    have hrest : k ∉ rest.map Prod.fst := by
      intro hm
      exact h (by simp [hm])
    rw [getAllWeeklyTotals_cons]
    by_cases ht : 0 < totalLoop (now - weekSeconds) p.2
    · simp [ht, List.find?, hpk, ih hrest]
    · simp [ht, ih hrest]

/-! ### Registry lemmas -/

theorem registerClient_key_mem (st : Registry) (c : Conn) (f : String) :
    c ∈ (registerClient st c f).map Prod.fst := by
  induction st with
  | nil => simp [registerClient]
  | cons p rest ih =>
    by_cases h : p.1 = c
    · simp [registerClient, h]
    · simp [registerClient, h]
      right
      simpa using ih

theorem registerClient_length_of_mem (st : Registry) (c : Conn) (f : String)
    (h : c ∈ st.map Prod.fst) : (registerClient st c f).length = st.length := by
  induction st with
  | nil => simp at h
  | cons p rest ih =>
    by_cases hp : p.1 = c
    · simp [registerClient, hp]
    · have hrest : c ∈ rest.map Prod.fst := by
        rw [List.map_cons] at h
        rcases List.mem_cons.mp h with h1 | h1
        · exact absurd h1.symm hp
        · exact h1
      simp [registerClient, hp, ih hrest]

theorem lookupFilter_registerClient_self (st : Registry) (c : Conn) (f : String) :
    lookupFilter (registerClient st c f) c = some f := by
  induction st with
  | nil => simp [registerClient, lookupFilter]
  | cons p rest ih =>
    by_cases h : p.1 = c
    · simp [registerClient, lookupFilter, h]
    · simp [registerClient, lookupFilter, h, ih]

theorem registerClient_keys_cases (st : Registry) (c : Conn) (f : String) (x : Conn)
    (h : x ∈ (registerClient st c f).map Prod.fst) : x = c ∨ x ∈ st.map Prod.fst := by
  induction st with
  | nil =>
    simp [registerClient] at h
    exact Or.inl h
  | cons p rest ih =>
    by_cases hp : p.1 = c
    · simp [registerClient, hp] at h
      rcases h with h | h
      · exact Or.inl h
      · exact Or.inr (by simp [h])
    · simp [registerClient, hp] at h
      rcases h with h | h
      · exact Or.inr (by simp [h])
      · rcases ih (by simpa using h) with h2 | h2
        · exact Or.inl h2
        · exact Or.inr (by simp; right; simpa using h2)

theorem registerClient_keys_nodup (st : Registry) (c : Conn) (f : String)
    (hu : (st.map Prod.fst).Nodup) : ((registerClient st c f).map Prod.fst).Nodup := by
  induction st with
  | nil => simp [registerClient]
  | cons p rest ih =>
    rw [List.map_cons, List.nodup_cons] at hu
    by_cases hp : p.1 = c
    · rw [← hp]
      simpa [registerClient, hp, List.nodup_cons] using hu
    · have h1 : p.1 ∉ (registerClient rest c f).map Prod.fst := by
        intro hm
        rcases registerClient_keys_cases rest c f p.1 hm with h2 | h2
        · exact hp h2
        · exact hu.1 h2
      have heq : registerClient (p :: rest) c f = p :: registerClient rest c f := by
        simp [registerClient, hp]
      rw [heq, List.map_cons, List.nodup_cons]
      exact ⟨h1, ih hu.2⟩

theorem filter_key_eq_nil_of_absent (st : Registry) (c : Conn)
    (h : c ∉ st.map Prod.fst) : st.filter (fun p => p.1 == c) = [] := by
  induction st with
  | nil => simp
  | cons p rest ih =>
    have hpk : p.1 ≠ c := by
      intro he
      exact h (by simp [he])
    have hrest : c ∉ rest.map Prod.fst := by
      intro hm
      exact h (by simp [hm])
    simp [List.filter_cons, hpk, ih hrest]

theorem registerClient_filter_key (st : Registry) (c : Conn) (f : String)
    (hu : (st.map Prod.fst).Nodup) :
    (registerClient st c f).filter (fun p => p.1 == c) = [(c, f)] := by
  induction st with
  | nil => simp [registerClient]
  | cons p rest ih =>
    rw [List.map_cons, List.nodup_cons] at hu
    by_cases hp : p.1 = c
    · have : rest.filter (fun p => p.1 == c) = [] :=
        filter_key_eq_nil_of_absent rest c (by rw [← hp]; exact hu.1)
      simp [registerClient, hp, List.filter_cons, this]
    · simp [registerClient, hp, List.filter_cons, ih hu.2]

theorem lookupFilter_erase (st : Registry) (c : Conn) :
    lookupFilter (st.filter (fun p => !(p.1 == c))) c = none := by
  induction st with
  | nil => simp [lookupFilter]
  | cons p rest ih =>
    by_cases h : p.1 = c
    · simp [List.filter_cons, h, ih]
    · simp [List.filter_cons, h, lookupFilter, ih]

/-- With unique handles, the filter stored with a handle is determined by
membership. -/
theorem key_unique (st : Registry) (hu : (st.map Prod.fst).Nodup)
    (c : Conn) (f g : String) (hf : (c, f) ∈ st) (hg : (c, g) ∈ st) : f = g := by
  induction st with
  | nil => cases hf
  | cons p rest ih =>
    rw [List.map_cons, List.nodup_cons] at hu
    rcases List.mem_cons.mp hf with hf1 | hf1
    · rcases List.mem_cons.mp hg with hg1 | hg1
      · exact congrArg Prod.snd (hf1.trans hg1.symm)
      · exfalso
        apply hu.1
        rw [← hf1]
        exact List.mem_map.mpr ⟨(c, g), hg1, rfl⟩
    · rcases List.mem_cons.mp hg with hg1 | hg1
      · exfalso
        apply hu.1
        rw [← hg1]
        exact List.mem_map.mpr ⟨(c, f), hf1, rfl⟩
      · exact ih hu.2 hf1 hg1

/-! ### Delivery-pass characterization -/

/-- The loop's skip condition `filter != "" && !matchesFilter(...)` is
`!matchesFilter(...)` outright, because the empty filter matches
everything. -/
theorem skipCond_eq (msgType f : String) :
    (f != "" && !matchesFilter msgType f) = !matchesFilter msgType f := by
  by_cases h : f = ""
  · subst h
    simp [matchesFilter]
  · have hb : (f == "") = false := by
      simpa using h
    simp [bne, hb]

/-- The delivery loop from an arbitrary accumulator: it appends the
handles of the matching subscribers whose write fails and counts the
matching subscribers whose write succeeds. -/
theorem deliverPass_foldl (msgType : String) (writeOk : Conn → Bool)
    (snapshot : Registry) (acc : List Conn × Nat) :
    snapshot.foldl
      (fun acc p =>
        if p.2 != "" && !matchesFilter msgType p.2 then acc
        else if writeOk p.1 then (acc.1, acc.2 + 1)
        else (acc.1 ++ [p.1], acc.2)) acc
      = (acc.1 ++ (snapshot.filter (fun p => matchesFilter msgType p.2 && !writeOk p.1)).map Prod.fst,
         acc.2 + (snapshot.filter (fun p => matchesFilter msgType p.2 && writeOk p.1)).length) := by
  induction snapshot generalizing acc with
  | nil => simp
  | cons p rest ih =>
    rw [List.foldl_cons, ih]
    cases hm : matchesFilter msgType p.2 with
    | false =>
      have hne : ¬p.2 = "" := by
        intro he
        rw [he] at hm
        simp [matchesFilter] at hm
      simp [hm, hne, List.filter_cons]
    | true =>
      cases hw : writeOk p.1 with
      | false => simp [skipCond_eq, hm, hw, List.filter_cons]
      | true =>
        simp [skipCond_eq, hm, hw, List.filter_cons]
        omega

/-- `deliverPass` collects exactly the matching-but-failed handles of the
whole snapshot and counts exactly the matching successful writes. -/
theorem deliverPass_eq (msgType : String) (writeOk : Conn → Bool) (snapshot : Registry) :
    deliverPass snapshot msgType writeOk
      = ((snapshot.filter (fun p => matchesFilter msgType p.2 && !writeOk p.1)).map Prod.fst,
         (snapshot.filter (fun p => matchesFilter msgType p.2 && writeOk p.1)).length) := by
  simpa [deliverPass] using deliverPass_foldl msgType writeOk snapshot ([], 0)

theorem contains_iff_mem (l : List Conn) (c : Conn) : l.contains c = true ↔ c ∈ l := by
  simp

theorem contains_eq_false_of_not_mem (l : List Conn) (x : Conn) (h : x ∉ l) :
    l.contains x = false := by
  cases hc : l.contains x
  · rfl
  · exact absurd ((contains_iff_mem l x).mp hc) h

/-! ### Claims -/

/-- C1: the filter predicate returns `true` iff the filter specification
is the empty string, or the event-type tag is exactly (case-sensitively)
one of the tokens obtained by splitting the specification on commas and
trimming surrounding whitespace; in particular the empty specification
matches every event type, and `"session,weekly_summary"` matches each
listed type and no other. -/
theorem c1_matchesFilter_iff_token :
    (∀ t f : String, matchesFilter t f = true
        ↔ (f = "" ∨ t.data ∈ (splitCommaChars f.data).map trimChars))
    ∧ (∀ t : String, matchesFilter t "" = true)
    ∧ matchesFilter "session" "session,weekly_summary" = true
    ∧ matchesFilter "weekly_summary" "session,weekly_summary" = true
    ∧ matchesFilter "metrics" "session,weekly_summary" = false := by
  refine ⟨fun t f => ?_, fun t => by simp [matchesFilter], by decide, by decide, by decide⟩
  by_cases h : f = ""
  · subst h
    simp [matchesFilter]
  · have hb : (f == "") = false := by
      simpa using h
    simp [matchesFilter, hb, h]

/-- C2: `AddSessionRecord` appends a record stamped `now`, discards the
records of the key at or beyond 7 days of age, stores the pruned sequence
back, and returns the sum of the retained durations; two calls inside one
window return a running sum (120 then 60 gives 180), and a record written
more than 7 days before a later call is excluded (100 at day 0, then 50
at day 8, returns 50). -/
theorem c2_addSessionRecord_window :
    (∀ (st : Ledger) (now : Int) (k : String) (d : Int),
      addSessionRecord st now k d
        = (storeRecords st k
             ((lookupRecords st k ++ [(⟨now, d⟩ : SessionRecord)]).filter
               (fun r => now - weekSeconds < r.timestamp)),
           (((lookupRecords st k ++ [(⟨now, d⟩ : SessionRecord)]).filter
               (fun r => now - weekSeconds < r.timestamp)).map SessionRecord.duration).sum))
    ∧ (addSessionRecord (addSessionRecord [] 0 "10.0.0.5" 120).1 3600 "10.0.0.5" 60).2 = 180
    ∧ (addSessionRecord (addSessionRecord [] 0 "10.0.0.5" 100).1 (8 * 86400) "10.0.0.5" 50).2 = 50 := by
  refine ⟨fun st now k d => ?_, by decide, by decide⟩
  simp [addSessionRecord, pruneLoop_eq]

/-- C4: when the event payload cannot be serialized the whole pass is
aborted: for every registry and every write oracle, the registry is
returned unchanged and no delivery succeeds (the write oracle is never
consulted). -/
theorem c4_marshal_failure_aborts (st : Registry) (msgType : String) (writeOk : Conn → Bool) :
    broadcastMessage st msgType false writeOk = (st, 0) := rfl

/-- C6: `GetWeeklyTotal` leaves the ledger unchanged and returns the sum
of the durations of the key's stored records strictly younger than 7
days; an older stored record is merely excluded from the sum, not
removed. -/
theorem c6_getWeeklyTotal_pure (st : Ledger) (now : Int) (k : String) :
    (getWeeklyTotal st now k).1 = st
    ∧ (getWeeklyTotal st now k).2
        = (((lookupRecords st k).filter (fun r => now - weekSeconds < r.timestamp)).map
            SessionRecord.duration).sum :=
  ⟨rfl, by simp [getWeeklyTotal, totalLoop_eq]⟩

/-- C9: the record appended by `AddSessionRecord` is always retained by
that same call's prune step, and the returned total always includes the
supplied duration: it equals the key's previous weekly total plus `d`,
for every `d`, zero and negative included. -/
theorem c9_new_record_retained (st : Ledger) (now : Int) (k : String) (d : Int) :
    (⟨now, d⟩ : SessionRecord) ∈ lookupRecords (addSessionRecord st now k d).1 k
    ∧ (addSessionRecord st now k d).2 = (getWeeklyTotal st now k).2 + d := by
  have hlt : now - weekSeconds < now := by
    have h0 : (0 : Int) < weekSeconds := by decide
    omega
  constructor
  · simp [addSessionRecord, pruneLoop_eq, lookupRecords_storeRecords_self,
      List.filter_append, hlt]
  · simp [addSessionRecord, getWeeklyTotal, pruneLoop_eq, totalLoop_eq,
      List.filter_append, hlt]

/-- C10: the trailing 7-day window is open at its left endpoint: a record
stamped exactly `now - 7d` changes neither the total of `GetWeeklyTotal`,
nor the map returned by `GetAllWeeklyTotals`, nor the state and total
produced by `AddSessionRecord`, which prunes it — all three operations
use the same strict comparison. -/
theorem c10_window_open_boundary (st : Ledger) (k : String) (rs : List SessionRecord)
    (d e : Int) (now : Int) :
    (getWeeklyTotal (storeRecords st k (rs ++ [⟨now - weekSeconds, d⟩])) now k).2
        = (getWeeklyTotal (storeRecords st k rs) now k).2
    ∧ getAllWeeklyTotals (storeRecords st k (rs ++ [⟨now - weekSeconds, d⟩])) now
        = getAllWeeklyTotals (storeRecords st k rs) now
    ∧ addSessionRecord (storeRecords st k (rs ++ [⟨now - weekSeconds, d⟩])) now k e
        = addSessionRecord (storeRecords st k rs) now k e := by
  refine ⟨?_, getAllWeeklyTotals_storeRecords_boundary st k rs now d, ?_⟩
  · simp [getWeeklyTotal, lookupRecords_storeRecords_self, totalLoop_append_boundary]
  · simp [addSessionRecord, lookupRecords_storeRecords_self, storeRecords_storeRecords,
      pruneLoop_eq, List.filter_append]

/-- Every key of the totals map is a key of the ledger. -/
theorem getAll_key_mem (st : Ledger) (now : Int) (a : String) (b : Int)
    (h : (a, b) ∈ getAllWeeklyTotals st now) : a ∈ st.map Prod.fst := by
  simp only [getAllWeeklyTotals] at h
  rcases List.mem_filterMap.mp h with ⟨p, hp, he⟩
  by_cases ht : 0 < totalLoop (now - weekSeconds) p.2
  · rw [if_pos ht] at he
    injection he with he2
    exact List.mem_map.mpr ⟨p, hp, congrArg Prod.fst he2⟩
  · rw [if_neg ht] at he
    exact Option.noConfusion he

/-- Helper for C5: `find?` over the totals map, for a ledger with unique
keys, as a lookup of the key's weekly sum when that sum is positive. -/
theorem getAll_find_aux (st : Ledger) (now : Int) (k : String)
    (hu : (st.map Prod.fst).Nodup) :
    (getAllWeeklyTotals st now).find? (fun q => q.1 == k)
      = if 0 < totalLoop (now - weekSeconds) (lookupRecords st k)
        then some (k, totalLoop (now - weekSeconds) (lookupRecords st k)) else none := by
  induction st with
  | nil => simp [getAllWeeklyTotals, lookupRecords, totalLoop]
  | cons p rest ih =>
    obtain ⟨pk, pv⟩ := p
    rw [List.map_cons, List.nodup_cons] at hu
    rw [getAllWeeklyTotals_cons]
    by_cases h : pk = k
    · subst h
      have hlk : lookupRecords ((pk, pv) :: rest) pk = pv := by
        simp [lookupRecords]
      rw [hlk]
      by_cases ht : 0 < totalLoop (now - weekSeconds) pv
      · simp [ht, List.find?]
      · simp [ht]
        intro a b hab hak
        apply hu.1
        rw [← hak]
        exact getAll_key_mem rest now a b hab
    · have hlk : lookupRecords ((pk, pv) :: rest) k = lookupRecords rest k := by
        simp [lookupRecords, h]
      rw [hlk]
      by_cases ht : 0 < totalLoop (now - weekSeconds) pv
      · simp [ht, List.find?, h, ih hu.2]
      · simp [ht, ih hu.2]

/-- C5 counterexample: a ledger holding one in-window record of duration
−5 gives the key the non-zero weekly total −5, yet `GetAllWeeklyTotals`
omits the key — the code keeps only strictly positive totals. -/
theorem c5_negative_total_omitted :
    (getWeeklyTotal [("10.0.0.5", [⟨0, -5⟩])] 0 "10.0.0.5").2 = -5
    ∧ (getAllWeeklyTotals [("10.0.0.5", [⟨0, -5⟩])] 0).find?
        (fun q => q.1 == "10.0.0.5") = none := by
  constructor
  · decide
  · decide

/-- C5 (amended): `GetAllWeeklyTotals` assigns to each key the same
weekly total that `GetWeeklyTotal` computes, and it contains exactly the
keys whose total is strictly positive; keys whose total is zero or
negative are omitted. -/
theorem c5_getAllWeeklyTotals_positive (st : Ledger) (now : Int) (k : String)
    (hu : (st.map Prod.fst).Nodup) :
    (getAllWeeklyTotals st now).find? (fun q => q.1 == k)
      = if 0 < (getWeeklyTotal st now k).2
        then some (k, (getWeeklyTotal st now k).2) else none := by
  simpa [getWeeklyTotal] using getAll_find_aux st now k hu

theorem c5_getAllWeeklyTotals_positive_witness :
    ((([("a", [⟨0, 10⟩]), ("b", [⟨0, -3⟩])] : Ledger).map Prod.fst).Nodup)
    ∧ (getAllWeeklyTotals [("a", [⟨0, 10⟩]), ("b", [⟨0, -3⟩])] 0).find? (fun q => q.1 == "a")
        = if 0 < (getWeeklyTotal [("a", [⟨0, 10⟩]), ("b", [⟨0, -3⟩])] 0 "a").2
          then some ("a", (getWeeklyTotal [("a", [⟨0, 10⟩]), ("b", [⟨0, -3⟩])] 0 "a").2)
          else none :=
  ⟨by decide, c5_getAllWeeklyTotals_positive [("a", [⟨0, 10⟩]), ("b", [⟨0, -3⟩])] 0 "a" (by decide)⟩

/-- C3: the failed subscribers of a delivery pass are collected over the
whole snapshot (none is removed mid-iteration), and after the batched
removal that follows the pass a registered subscriber is still present
iff its delivery did not fail: targets whose write failed are gone,
subscribers whose write succeeded or that were filtered out remain. -/
theorem c3_failed_removed_after_pass (st : Registry) (msgType : String)
    (writeOk : Conn → Bool) (hu : (st.map Prod.fst).Nodup) :
    (deliverPass st msgType writeOk).1
        = (st.filter (fun p => matchesFilter msgType p.2 && !writeOk p.1)).map Prod.fst
    ∧ ∀ c f, (c, f) ∈ st →
        ((c, f) ∈ (broadcastMessage st msgType true writeOk).1
          ↔ (matchesFilter msgType f = true → writeOk c = true)) := by
  refine ⟨by rw [deliverPass_eq], ?_⟩
  intro c f hm
  have hfail : c ∈ (st.filter (fun q => matchesFilter msgType q.2 && !writeOk q.1)).map Prod.fst
      ↔ (matchesFilter msgType f = true ∧ writeOk c = false) := by
    constructor
    · intro hc
      rcases List.mem_map.mp hc with ⟨q, hq, hqc⟩
      rcases List.mem_filter.mp hq with ⟨hqst, hcond⟩
      have hq2 : (c, q.2) ∈ st := by
        rw [← hqc]
        exact hqst
      have hfq : q.2 = f := key_unique st hu c q.2 f hq2 hm
      have hcond2 : matchesFilter msgType q.2 = true ∧ writeOk q.1 = false := by
        simpa using hcond
      refine ⟨by rw [← hfq]; exact hcond2.1, ?_⟩
      rw [← hqc]
      exact hcond2.2
    · rintro ⟨h1, h2⟩
      exact List.mem_map.mpr ⟨(c, f), List.mem_filter.mpr ⟨hm, by simp [h1, h2]⟩, rfl⟩
  have hbm : (broadcastMessage st msgType true writeOk).1
      = st.filter (fun p =>
          !(((st.filter (fun q => matchesFilter msgType q.2 && !writeOk q.1)).map
              Prod.fst).contains p.1)) := by
    simp [broadcastMessage, deliverPass_eq]
  rw [hbm]
  simp only [List.mem_filter]
  constructor
  · rintro ⟨-, hnc⟩ hmt
    by_cases hwc : writeOk c = true
    · exact hwc
    · exfalso
      have hmem : c ∈ (st.filter (fun q => matchesFilter msgType q.2 && !writeOk q.1)).map
          Prod.fst := hfail.mpr ⟨hmt, by simpa using hwc⟩
      rw [← contains_iff_mem] at hmem
      rw [hmem] at hnc
      simp at hnc
  · intro himp
    refine ⟨hm, ?_⟩
    have hnm : c ∉ (st.filter (fun q => matchesFilter msgType q.2 && !writeOk q.1)).map
        Prod.fst := by
      intro hc
      rcases hfail.mp hc with ⟨h1, h2⟩
      rw [himp h1] at h2
      cases h2
    have hcf := contains_eq_false_of_not_mem _ c hnm
    rw [hcf]
    rfl

theorem c3_failed_removed_after_pass_witness :
    (([(1, ""), (2, "session")] : Registry).map Prod.fst).Nodup
    ∧ ((deliverPass [(1, ""), (2, "session")] "session" (fun c => c == 1)).1
        = (([(1, ""), (2, "session")] : Registry).filter
            (fun p => matchesFilter "session" p.2 && !(p.1 == 1))).map Prod.fst
      ∧ ∀ c f, (c, f) ∈ ([(1, ""), (2, "session")] : Registry) →
          ((c, f) ∈ (broadcastMessage [(1, ""), (2, "session")] "session" true
              (fun c => c == 1)).1
            ↔ (matchesFilter "session" f = true → (c == 1) = true))) :=
  ⟨by decide,
   c3_failed_removed_after_pass [(1, ""), (2, "session")] "session" (fun c => c == 1)
     (by decide)⟩

/-- C7: `Register` is idempotent in effect: registering the same handle
twice leaves exactly one entry for that handle, holding the second
filter, and the subscriber count after the second call equals the count
after the first. -/
theorem c7_register_idempotent (st : Registry) (c : Conn) (f g : String)
    (hu : (st.map Prod.fst).Nodup) :
    (registerClient (registerClient st c f) c g).length = (registerClient st c f).length
    ∧ lookupFilter (registerClient (registerClient st c f) c g) c = some g
    ∧ ((registerClient (registerClient st c f) c g).filter (fun p => p.1 == c)).length = 1 := by
  refine ⟨?_, lookupFilter_registerClient_self _ c g, ?_⟩
  · exact registerClient_length_of_mem _ c g (registerClient_key_mem st c f)
  · rw [registerClient_filter_key _ c g (registerClient_keys_nodup st c f hu)]
    rfl

theorem c7_register_idempotent_witness :
    (([(2, "metrics")] : Registry).map Prod.fst).Nodup
    ∧ ((registerClient (registerClient [(2, "metrics")] 1 "a") 1 "b").length
        = (registerClient [(2, "metrics")] 1 "a").length
      ∧ lookupFilter (registerClient (registerClient [(2, "metrics")] 1 "a") 1 "b") 1
          = some "b"
      ∧ ((registerClient (registerClient [(2, "metrics")] 1 "a") 1 "b").filter
          (fun p => p.1 == 1)).length = 1) :=
  ⟨by decide, c7_register_idempotent [(2, "metrics")] 1 "a" "b" (by decide)⟩

/-- C8: `Unregister` of an absent handle is a no-op, not an error: the
registry is returned unchanged and `Close` is not called; of a present
handle, it removes the entry and calls `Close`. -/
theorem c8_unregister_absent_noop (st : Registry) (c : Conn) :
    (lookupFilter st c = none → unregisterClient st c = (st, false))
    ∧ (lookupFilter st c ≠ none →
        (unregisterClient st c).2 = true
        ∧ lookupFilter (unregisterClient st c).1 c = none) := by
  constructor
  · intro h
    simp [unregisterClient, h]
  · intro h
    rcases ho : lookupFilter st c with _ | f
    · exact absurd ho h
    · refine ⟨by simp [unregisterClient, ho], ?_⟩
      have h1 : (unregisterClient st c).1 = st.filter (fun p => !(p.1 == c)) := by
        simp [unregisterClient, ho]
      rw [h1]
      exact lookupFilter_erase st c

end GoS
